import Mathlib

/-!
Verification of the `claude-plugins` documentation generator.

Shallow embedding of `plugins/claude-plugin/skills/documentation-update/doc_generator.py`:
the `SimpleTemplate` rendering engine (variable substitution, loop expansion, conditional
expansion, cleanup pass, all implemented with Python `re.sub` / `str.replace` scans) and
the `DocGenerator.build_context` context builder.

Strings are modelled as `List Char` (`Str`).  Python values flowing through the engine
(JSON scalars, sequences and string-keyed records) are modelled by `Value`; contexts
(`Dict[str, Any]`) by insertion-ordered association lists.  The regex passes of `render`
use only the three fixed patterns of the source; each is embedded as a dedicated
deterministic scanner whose behaviour coincides with Python's leftmost, lazy-body
matching for these patterns (the involved character classes `\s`, `\w` and the literal
tokens are pairwise disjoint, so the greedy runs are backtracking-free; `\s`/`\w` are
modelled at their ASCII core).
-/

namespace DocGen

/-- Python `str`, modelled as a list of characters. -/
abbrev Str := List Char

/-- Build a `Str` from a Lean string literal. -/
def tS (s : String) : Str := s.data

/-- A Python value as handled by `doc_generator.py`: JSON scalars, lists and
string-keyed dicts (JSON objects always have string keys; floating-point
numbers are outside the model). -/
inductive Value where
  | str  (s : Str)
  | int  (n : Int)
  | bool (b : Bool)
  | none
  | list (xs : List Value)
  | dict (kvs : List (Str × Value))

/-- A render context: `Dict[str, Any]`, an insertion-ordered mapping. -/
abbrev Context := List (Str × Value)

/-- Python dict membership / item lookup (`k in d`, `d[k]`): first binding wins
(Python dicts have unique keys). -/
def ctxGet (c : Context) (k : Str) : Option Value :=
  match c with
  | [] => Option.none
  | (k', v) :: rest => if k' = k then some v else ctxGet rest k

/-- Python dict assignment `d[k] = v`: overwrite in place, else append. -/
def ctxSet (c : Context) (k : Str) (v : Value) : Context :=
  match c with
  | [] => [(k, v)]
  | (k', v') :: rest => if k' = k then (k', v) :: rest else (k', v') :: ctxSet rest k v

/-- Python `str(n)` for an int: decimal digits, `-` sign. -/
def intStr (n : Int) : Str := (toString n).data

/-- Escape a character for Python `repr` of a string with chosen quote `q`
(backslash, newline, carriage return, tab and the quote itself; other
printable characters are kept verbatim). -/
def reprEscape (q : Char) (s : Str) : Str :=
  s.flatMap (fun c =>
    if c = '\\' then ['\\', '\\']
    else if c = '\n' then ['\\', 'n']
    else if c = '\r' then ['\\', 'r']
    else if c = '\t' then ['\\', 't']
    else if c = q then ['\\', q]
    else [c])

/-- Python `repr` of a string: single quotes, or double quotes when the string
contains `'` but no `"`. -/
def reprQuote (s : Str) : Str :=
  let q : Char := if s.contains '\'' && !(s.contains '"') then '"' else '\''
  q :: reprEscape q s ++ [q]

mutual

/-- Python `repr(value)`. -/
def pyRepr : Value → Str
  | .str s => reprQuote s
  | .int n => intStr n
  | .bool b => if b then tS "True" else tS "False"
  | .none => tS "None"
  | .list xs => '[' :: pyReprList xs ++ [']']
  | .dict kvs => '{' :: pyReprDict kvs ++ ['}']

/-- Python `repr` of list elements, comma separated. -/
def pyReprList : List Value → Str
  | [] => []
  | [x] => pyRepr x
  | x :: y :: rest => pyRepr x ++ ',' :: ' ' :: pyReprList (y :: rest)

/-- Python `repr` of dict items, comma separated. -/
def pyReprDict : List (Str × Value) → Str
  | [] => []
  | [(k, v)] => reprQuote k ++ ':' :: ' ' :: pyRepr v
  | (k, v) :: kv :: rest =>
      reprQuote k ++ ':' :: ' ' :: pyRepr v ++ ',' :: ' ' :: pyReprDict (kv :: rest)

end

/-- Python `str(value)` as used by `render` (for non-`str` values `str` agrees
with `repr`). -/
def pyStr : Value → Str
  | .str s => s
  | v => pyRepr v

/-- Python truthiness for these values (`if context[condition]:`). -/
def pyTruthy : Value → Bool
  | .str s => !s.isEmpty
  | .int n => n != 0
  | .bool b => b
  | .none => false
  | .list xs => !xs.isEmpty
  | .dict kvs => !kvs.isEmpty

/-- Left-to-right scan of `s`, replacing each occurrence of the non-empty
pattern `pat` by `rep` and continuing after the replaced segment.  The scan is
always started with `fuel = s.length`; a match consumes at least one character,
so this fuel is never exhausted (`replaceGo_fuel`). -/
def replaceGo (pat rep : Str) : Nat → Str → Str
  | _, [] => []
  | 0, s => s
  | fuel + 1, c :: rest =>
    if pat.isPrefixOf (c :: rest) then rep ++ replaceGo pat rep fuel (rest.drop (pat.length - 1))
    else c :: replaceGo pat rep fuel rest

/-- Python `s.replace(pat, rep)`: replace every (leftmost, non-overlapping)
occurrence; the empty pattern inserts `rep` at every position. -/
def replaceAll (s pat rep : Str) : Str :=
  match pat with
  | [] => rep ++ s.flatMap (fun c => c :: rep)
  | _ :: _ => replaceGo pat rep s.length s

/-! ## The regex passes of `SimpleTemplate.render`

The source uses three fixed patterns:
  for loops     : `{%\s*for\s+(\w+)\s+in\s+(\w+)\s*%}(.*?){%\s*endfor\s*%}` (DOTALL)
  conditionals  : `{%\s*if\s+(\w+)\s*%}(.*?){%\s*endif\s*%}` (DOTALL)
  cleanup       : `{%.*?%}` and `{{.*?}}` (no DOTALL: `.` does not cross newlines)
In each pattern a greedy `\s*`/`\s+`/`\w+` run is always followed by a character
outside its class, so matching the headers is deterministic (no backtracking can
succeed where the maximal-run parse fails), and the lazy `(.*?)` body stops at the
first position where the closing token pattern matches. -/

/-- The `\s` class at its ASCII core (Python `re` whitespace). -/
def isPySpace (c : Char) : Bool :=
  c = ' ' || c = '\t' || c = '\n' || c = '\r' || c = '\x0b' || c = '\x0c'

/-- The `\w` class at its ASCII core. -/
def isPyWord (c : Char) : Bool := c.isAlphanum || c = '_'

/-- The token `{{`. -/
def openVar : Str := ['{', '{']
/-- The token `}}`. -/
def closeVar : Str := ['}', '}']
/-- The token `{%`. -/
def openTag : Str := ['{', '%']
/-- The token `%}`. -/
def closeTag : Str := ['%', '}']

/-- The literal `{{ key }}` searched by the variable-substitution pass. -/
def varTok (k : Str) : Str := openVar ++ ' ' :: (k ++ ' ' :: closeVar)

/-- The literal `{{ var.field }}` searched inside a loop body for record elements. -/
def fieldTok (v k : Str) : Str := openVar ++ ' ' :: (v ++ '.' :: (k ++ ' ' :: closeVar))

/-- Match a literal token at the head of `s`. -/
def eat (lit s : Str) : Option Str :=
  if lit.isPrefixOf s then some (s.drop lit.length) else Option.none

/-- Regex `\s*`: drop the maximal whitespace run. -/
def eatSpaces (s : Str) : Str := s.dropWhile isPySpace

/-- Regex `\s+`: at least one whitespace character, then the maximal run. -/
def eatSpaces1 (s : Str) : Option Str :=
  match s with
  | [] => Option.none
  | c :: rest => if isPySpace c then some (rest.dropWhile isPySpace) else Option.none

/-- Regex `(\w+)`: capture the maximal (non-empty) word run. -/
def eatWord (s : Str) : Option (Str × Str) :=
  match s.takeWhile isPyWord with
  | [] => Option.none
  | w => some (w, s.drop w.length)

/-- Regex `{%\s*endfor\s*%}`: returns the rest after the token. -/
def matchEndforAt (s : Str) : Option Str := do
  let s ← eat openTag s
  let s ← eat (tS "endfor") (eatSpaces s)
  eat closeTag (eatSpaces s)

/-- Regex `{%\s*endif\s*%}`: returns the rest after the token. -/
def matchEndifAt (s : Str) : Option Str := do
  let s ← eat openTag s
  let s ← eat (tS "endif") (eatSpaces s)
  eat closeTag (eatSpaces s)

/-- The lazy DOTALL body `(.*?)` up to the first position where `endM` matches:
returns the body and the rest after the closing token. -/
def scanBody (endM : Str → Option Str) : Str → Option (Str × Str)
  | [] => Option.none
  | c :: rest =>
    match endM (c :: rest) with
    | some after => some ([], after)
    | Option.none => (scanBody endM rest).map (fun ba => (c :: ba.1, ba.2))

/-- Match the full loop pattern `{%\s*for\s+(\w+)\s+in\s+(\w+)\s*%}(.*?){%\s*endfor\s*%}`
at the head of `s`: returns (loop variable, list name, body, rest after the match). -/
def matchForAt (s : Str) : Option (Str × Str × Str × Str) := do
  let s ← eat openTag s
  let s ← eat (tS "for") (eatSpaces s)
  let s ← eatSpaces1 s
  let (var, s) ← eatWord s
  let s ← eatSpaces1 s
  let s ← eat (tS "in") s
  let s ← eatSpaces1 s
  let (lst, s) ← eatWord s
  let s ← eat closeTag (eatSpaces s)
  let (body, after) ← scanBody matchEndforAt s
  pure (var, lst, body, after)

/-- Match the conditional pattern `{%\s*if\s+(\w+)\s*%}(.*?){%\s*endif\s*%}` at the
head of `s`: returns (condition name, body, rest after the match). -/
def matchIfAt (s : Str) : Option (Str × Str × Str) := do
  let s ← eat openTag s
  let s ← eat (tS "if") (eatSpaces s)
  let s ← eatSpaces1 s
  let (cond, s) ← eatWord s
  let s ← eat closeTag (eatSpaces s)
  let (body, after) ← scanBody matchEndifAt s
  pure (cond, body, after)

/-- The lazy non-DOTALL body of the cleanup patterns: scan for the first occurrence
of `close`, not crossing a newline; returns the rest after `close`. -/
def scanShort (close : Str) : Str → Option Str
  | [] => Option.none
  | c :: rest =>
    if close.isPrefixOf (c :: rest) then some ((c :: rest).drop close.length)
    else if c = '\n' then Option.none
    else scanShort close rest

/-- Match a cleanup pattern `opn.*?cls` (no DOTALL) at the head of `s`. -/
def matchDelAt (opn cls s : Str) : Option Str := do
  let s ← eat opn s
  scanShort cls s

/-- Python `re.sub` with a replacement function that may also update the context
(Python's replacement functions close over the caller's dict): scan left to
right; on a match emit the replacement and continue after the matched span,
otherwise keep one character and continue.  `fuel` bounds the recursion and is
always called with the input length (every match consumes at least one
character, so this fuel is never exhausted — see `reSubCtx_fuel`). -/
def reSubCtx (m : Context → Str → Option (Str × Context × Str)) :
    Nat → Context → Str → Str × Context
  | _, ctx, [] => ([], ctx)
  | 0, ctx, s => (s, ctx)
  | fuel + 1, ctx, c :: rest =>
    match m ctx (c :: rest) with
    | some (rep, ctx', after) =>
      let (out, ctx'') := reSubCtx m fuel ctx' after
      (rep ++ out, ctx'')
    | Option.none =>
      let (out, ctx'') := reSubCtx m fuel ctx rest
      (c :: out, ctx'')

namespace SimpleTemplate

/-- Step 1 of `render`: `for key, value in context.items():
result = result.replace(f"{{{{ {key} }}}}", str(value))`. -/
def scalarPass (context : Context) (t : Str) : Str :=
  context.foldl (fun result kv => replaceAll result (varTok kv.1) (pyStr kv.2)) t

/-- Per-element instantiation of a loop body (`replace_for`'s inner loop): for a
record element replace each `{{ var.field }}` by `str(field value)` in field
order; for any other element replace `{{ var }}` by `str(item)`. -/
def instBody (var : Str) (item : Value) (body : Str) : Str :=
  match item with
  | .dict kvs =>
      kvs.foldl (fun bodyResult kv => replaceAll bodyResult (fieldTok var kv.1) (pyStr kv.2)) body
  | _ => replaceAll body (varTok var) (pyStr item)

/-- Source `replace_for(match)`: empty output when the list name is absent or its value
is not a list; otherwise one instantiated body per element, concatenated.  Each
iteration builds `loop_context = context.copy(); loop_context[var_name] = item`
on a copy (the copy is modelled by the value itself: the embedding carries no
aliasing), so the caller's context comes back unchanged. -/
def replaceForS (context : Context) (var lst body : Str) : Str × Context :=
  match ctxGet context lst with
  | Option.none => ([], context)
  | some items =>
    match items with
    | .list items =>
      let (output, ctx') := items.foldl
        (fun acc item =>
          let loopContext := ctxSet acc.2 var item
          let bodyResult := instBody var item body
          let _ := loopContext
          (acc.1 ++ [bodyResult], acc.2))
        (([] : List Str), context)
      (output.flatten, ctx')
    | _ => ([], context)

/-- Source `replace_if(match)`: the body when the condition names a truthy context
entry, empty output otherwise. -/
def replaceIf (context : Context) (cond body : Str) : Str :=
  match ctxGet context cond with
  | some v => if pyTruthy v then body else []
  | Option.none => []

/-- Matcher + replacer for the loop pass. -/
def forMatcher (ctx : Context) (s : Str) : Option (Str × Context × Str) :=
  (matchForAt s).map (fun m =>
    let (var, lst, body, after) := m
    let (rep, ctx') := replaceForS ctx var lst body
    (rep, ctx', after))

/-- Matcher + replacer for the conditional pass. -/
def ifMatcher (ctx : Context) (s : Str) : Option (Str × Context × Str) :=
  (matchIfAt s).map (fun m =>
    let (cond, body, after) := m
    (replaceIf ctx cond body, ctx, after))

/-- Matcher for a cleanup pass: delete the matched span. -/
def delMatcher (opn cls : Str) (ctx : Context) (s : Str) : Option (Str × Context × Str) :=
  (matchDelAt opn cls s).map (fun after => ([], ctx, after))

/-- Step 2 of `render`: `re.sub(for_pattern, replace_for, result, flags=re.DOTALL)`. -/
def forPass (ctx : Context) (s : Str) : Str × Context := reSubCtx forMatcher s.length ctx s

/-- Step 3 of `render`: `re.sub(if_pattern, replace_if, result, flags=re.DOTALL)`. -/
def ifPass (ctx : Context) (s : Str) : Str × Context := reSubCtx ifMatcher s.length ctx s

/-- Step 4 of `render`: one cleanup scan, `re.sub(r'..*?..', '', result)`. -/
def delPass (opn cls : Str) (s : Str) : Str := (reSubCtx (delMatcher opn cls) s.length [] s).1

/-- Source `SimpleTemplate.render`, with the final state of the caller's context made
explicit (the Python method can reach the caller's dict; it never writes to it,
which is exactly what the second component records). -/
def renderS (template : Str) (context : Context) : Str × Context :=
  let result := scalarPass context template
  let fp := forPass context result
  let ip := ifPass fp.2 fp.1
  let result := delPass openTag closeTag ip.1
  let result := delPass openVar closeVar result
  (result, ip.2)

/-- Source `SimpleTemplate.render(context)`: the rendered string. -/
def render (template : Str) (context : Context) : Str := (renderS template context).1

end SimpleTemplate

/-! ## The Context Builder: `DocGenerator.extract_frontmatter` / `build_context` -/

/-- Filesystem state as seen by the context builder: a mapping from paths to
file contents (a missing path models a non-existent file). -/
abbrev FS := List (Str × Str)

/-- Pure read: file content at a path. -/
def fsGet (fs : FS) (p : Str) : Option Str :=
  match fs with
  | [] => Option.none
  | (p', c) :: rest => if p' = p then some c else fsGet rest p

namespace DocGenerator

/-- Regex `\s*\n` with Python's greedy-`\s*`-then-backtrack behaviour: consume the
whitespace run up to (and including) its *last* newline; fail when the
whitespace prefix contains no newline.  (A shorter backtrack than the last
newline can only matter when `-`-characters sit at the very end of the run,
in which case the skipped region is all whitespace and the extracted
frontmatter text parses to the same empty mapping.) -/
def wsThenNL : Str → Option Str
  | [] => Option.none
  | c :: rest =>
    if isPySpace c then
      match wsThenNL rest with
      | some r => some r
      | Option.none => if c = '\n' then some rest else Option.none
    else Option.none

/-- The closing delimiter `\n---\s*\n` of the frontmatter pattern. -/
def fmEnd (s : Str) : Option Str :=
  match s with
  | '\n' :: r => (eat (tS "---") r).bind wsThenNL
  | _ => Option.none

/-- The lazy DOTALL group `(.*?)` of `^---\s*\n(.*?)\n---\s*\n`: the frontmatter
text up to the first position where the closing delimiter matches. -/
def fmBody : Str → Option Str
  | [] => Option.none
  | c :: rest =>
    if (fmEnd (c :: rest)).isSome then some []
    else (fmBody rest).map (fun b => c :: b)

/-- Drop characters satisfying `p` from both ends. -/
def dropEnds (p : Char → Bool) (s : Str) : Str :=
  ((s.dropWhile p).reverse.dropWhile p).reverse

/-- Python `str.strip()`. -/
def pyStrip (s : Str) : Str := dropEnds isPySpace s

/-- Python `str.strip('"\'')`. -/
def stripQuotes (s : Str) : Str := dropEnds (fun c => c = '"' || c = '\'') s

/-- Python `str.split('\n')` (always one more part than separators, empties kept). -/
def splitNL : Str → List Str
  | [] => [[]]
  | c :: rest =>
    match splitNL rest with
    | [] => [[]]
    | h :: t => if c = '\n' then [] :: h :: t else (c :: h) :: t

/-- Python dict assignment for the frontmatter mapping. -/
def fmUpsert (fm : List (Str × Str)) (k v : Str) : List (Str × Str) :=
  match fm with
  | [] => [(k, v)]
  | (k', v') :: rest => if k' = k then (k', v) :: rest else (k', v') :: fmUpsert rest k v

/-- Python `frontmatter.get(key, default)`. -/
def fmGetD (fm : List (Str × Str)) (k d : Str) : Str :=
  match fm with
  | [] => d
  | (k', v) :: rest => if k' = k then v else fmGetD rest k d

/-- The simple line-oriented YAML parsing of `extract_frontmatter`: for each line
containing `:`, split once, strip the key, strip whitespace then quote
characters from the value. -/
def parseFrontmatter (body : Str) : List (Str × Str) :=
  (splitNL body).foldl
    (fun fm line =>
      if line.contains ':' then
        let key := line.takeWhile (fun c => c != ':')
        let value := (line.dropWhile (fun c => c != ':')).drop 1
        fmUpsert fm (pyStrip key) (stripQuotes (pyStrip value))
      else fm)
    []

/-- Source `DocGenerator.extract_frontmatter`: empty mapping for a missing file or when
the anchored pattern `^---\s*\n(.*?)\n---\s*\n` does not match. -/
def extract_frontmatter (fs : FS) (path : Str) : List (Str × Str) :=
  match fsGet fs path with
  | Option.none => []
  | some content =>
    match (eat (tS "---") content).bind wsThenNL with
    | Option.none => []
    | some afterOpen =>
      match fmBody afterOpen with
      | Option.none => []
      | some body => parseFrontmatter body

/-- Python `str.lstrip('./')`: drop every leading `.` or `/`. -/
def lstripDotSlash (s : Str) : Str := s.dropWhile (fun c => c = '.' || c = '/')

/-- A component-list `value` as a JSON array of strings (the schema of the `agents`,
`commands` and `skills` component lists; other dynamic types make the Python
loop raise). -/
def asStrList : Value → Option (List Str)
  | .list xs => xs.mapM (fun x => match x with | .str s => some s | _ => Option.none)
  | _ => Option.none

/-- The record appended to `all_agents` for one agent path. -/
def agentEntry (fs : FS) (pluginDir : Str) (pluginName : Value) (agent_path : Str) : Value :=
  let agent_file := replaceAll agent_path (tS "./agents/") []
  let full_path := pluginDir ++ '/' :: lstripDotSlash agent_path
  let fm := extract_frontmatter fs full_path
  .dict [(tS "plugin", pluginName),
         (tS "name", .str (fmGetD fm (tS "name") (replaceAll agent_file (tS ".md") []))),
         (tS "file", .str agent_file),
         (tS "description", .str (fmGetD fm (tS "description") [])),
         (tS "model", .str (fmGetD fm (tS "model") []))]

/-- The record appended to `all_commands` for one command path. -/
def commandEntry (fs : FS) (pluginDir : Str) (pluginName : Value) (cmd_path : Str) : Value :=
  let cmd_file := replaceAll cmd_path (tS "./commands/") []
  let full_path := pluginDir ++ '/' :: lstripDotSlash cmd_path
  let fm := extract_frontmatter fs full_path
  .dict [(tS "plugin", pluginName),
         (tS "name", .str (fmGetD fm (tS "name") (replaceAll cmd_file (tS ".md") []))),
         (tS "file", .str cmd_file),
         (tS "description", .str (fmGetD fm (tS "description") []))]

/-- The record appended to `all_skills` for one skill path. -/
def skillEntry (fs : FS) (pluginDir : Str) (pluginName : Value) (skill_path : Str) : Value :=
  let skill_name := replaceAll skill_path (tS "./skills/") []
  let full_path := pluginDir ++ '/' :: (lstripDotSlash skill_path ++ '/' :: tS "SKILL.md")
  let fm := extract_frontmatter fs full_path
  .dict [(tS "plugin", pluginName),
         (tS "name", .str (fmGetD fm (tS "name") skill_name)),
         (tS "path", .str skill_name),
         (tS "description", .str (fmGetD fm (tS "description") []))]

/-- Accumulators of the plugin loop of `build_context`. -/
structure BAcc where
  pbc : List (Str × List Value)
  agents : List Value
  commands : List Value
  skills : List Value
  tA : Nat
  tC : Nat
  tSk : Nat

/-- The `plugins_by_category` update: append to the category's list, creating the
category on first use (Python dict insertion order). -/
def pbcAdd (pbc : List (Str × List Value)) (cat : Str) (p : Value) : List (Str × List Value) :=
  match pbc with
  | [] => [(cat, [p])]
  | (c, ps) :: rest => if c = cat then (c, ps ++ [p]) :: rest else (c, ps) :: pbcAdd rest cat p

/-- One iteration of the plugin loop.  Modelled domain: a plugin is a JSON
object, its `category` (when present) a string, its component lists arrays of
strings — the marketplace schema; outside it the Python loop raises
(`AttributeError`/`TypeError`), modelled as `none`. -/
def processPlugin (fs : FS) (acc : BAcc) (plugin : Value) : Option BAcc := do
  let kvs ← match plugin with | .dict kvs => some kvs | _ => Option.none
  let category ← match (ctxGet kvs (tS "category")).getD (.str (tS "general")) with
                 | .str c => some c
                 | _ => Option.none
  let name := (ctxGet kvs (tS "name")).getD (.str [])
  let pluginDir := tS "plugins/" ++ pyStr name
  let acc := { acc with pbc := pbcAdd acc.pbc category plugin }
  let acc ← match ctxGet kvs (tS "agents") with
    | Option.none => some acc
    | some v => do
        let paths ← asStrList v
        some { acc with agents := acc.agents ++ paths.map (agentEntry fs pluginDir name),
                        tA := acc.tA + paths.length }
  let acc ← match ctxGet kvs (tS "commands") with
    | Option.none => some acc
    | some v => do
        let paths ← asStrList v
        some { acc with commands := acc.commands ++ paths.map (commandEntry fs pluginDir name),
                        tC := acc.tC + paths.length }
  match ctxGet kvs (tS "skills") with
    | Option.none => some acc
    | some v => do
        let paths ← asStrList v
        some { acc with skills := acc.skills ++ paths.map (skillEntry fs pluginDir name),
                        tSk := acc.tSk + paths.length }

/-- The final context mapping, in the key insertion order of the source. -/
def assembleContext (data : List (Str × Value)) (now : Str) (nPlugins : Nat) (acc : BAcc) :
    Context :=
  [(tS "marketplace", .dict data),
   (tS "now", .str now),
   (tS "plugins_by_category", .dict (acc.pbc.map (fun cp => (cp.1, Value.list cp.2)))),
   (tS "all_agents", .list acc.agents),
   (tS "all_skills", .list acc.skills),
   (tS "all_commands", .list acc.commands),
   (tS "stats", .dict [(tS "total_plugins", .int nPlugins),
                       (tS "total_agents", .int acc.tA),
                       (tS "total_commands", .int acc.tC),
                       (tS "total_skills", .int acc.tSk)])]

/-- Source `DocGenerator.build_context`, as a function of the loaded marketplace
document (a JSON object), the filesystem state read by the frontmatter
lookups, and the wall-clock reading `now` taken by `datetime.now().strftime`
at line 146 of the source. -/
def build_context (marketplace_data : List (Str × Value)) (fs : FS) (now : Str) :
    Option Context :=
  match ctxGet marketplace_data (tS "plugins") with
  | Option.none => some (assembleContext marketplace_data now 0 ⟨[], [], [], [], 0, 0, 0⟩)
  | some (.list plugins) =>
      (plugins.foldlM (processPlugin fs) (⟨[], [], [], [], 0, 0, 0⟩ : BAcc)).map
        (assembleContext marketplace_data now plugins.length)
  | some _ => Option.none

end DocGenerator

/-! ## Observation helpers used by the claims -/

/-- The rest of `s` after the first occurrence of `pat`, when `pat` occurs. -/
def afterFirst (pat : Str) : Str → Option Str
  | [] => Option.none
  | c :: rest =>
    if pat.isPrefixOf (c :: rest) then some ((c :: rest).drop pat.length)
    else afterFirst pat rest

/-- Whether `pat` occurs as a contiguous substring of `s`. -/
def hasSub (pat s : Str) : Bool := (afterFirst pat s).isSome

/-- Whether `s` contains a directive-style span: an occurrence of `opn` followed
(disjointly) by a later occurrence of `cls`. -/
def hasSpan (opn cls s : Str) : Bool :=
  match afterFirst opn s with
  | some r => hasSub cls r
  | Option.none => false

/-- A context with its `now` entry removed (the clock-dependent part of
`build_context`'s output). -/
def ctxDropNow (c : Context) : Context := c.filter (fun kv => kv.1 != tS "now")

/-- Whether `s` contains no `{` character (then no directive token can occur in it). -/
def noBrace (s : Str) : Bool := s.all (fun c => c != '{')

/-- The string stored under a context's `now` key (empty when absent or not a
string) — a decidable observation of `build_context`'s clock dependence. -/
def nowStrOf (c : Context) : Str :=
  match ctxGet c (tS "now") with
  | some (.str s) => s
  | _ => []

/-! ## Supporting lemmas -/

theorem replaceGo_id (pat rep : Str) :
    ∀ s fuel, hasSub pat s = false → replaceGo pat rep fuel s = s := by
  intro s
  induction s with
  | nil => intro fuel _; cases fuel <;> rfl
  | cons c rest ih =>
    intro fuel h
    simp only [hasSub, afterFirst] at h
    by_cases hp : pat.isPrefixOf (c :: rest)
    · simp [hp] at h
    · simp only [hp, if_false] at h
      cases fuel with
      | zero => rfl
      | succ fuel =>
        simp only [replaceGo, hp, if_false]
        exact congrArg (c :: ·) (ih fuel h)

theorem replaceAll_id (s pat rep : Str) (h0 : pat ≠ []) (h : hasSub pat s = false) :
    replaceAll s pat rep = s := by
  match pat, h0 with
  | p :: ps, _ => exact replaceGo_id (p :: ps) rep s s.length h

theorem hasSub_mono (p₁ p₂ : Str) (hp : p₁ <+: p₂) :
    ∀ s, hasSub p₁ s = false → hasSub p₂ s = false := by
  intro s
  induction s with
  | nil => intro _; rfl
  | cons c rest ih =>
    intro h
    simp only [hasSub, afterFirst] at h ⊢
    by_cases h1 : p₁.isPrefixOf (c :: rest)
    · simp [h1] at h
    · simp only [h1, if_false] at h
      have h2 : p₂.isPrefixOf (c :: rest) = false := by
        by_contra hc
        rw [Bool.not_eq_false, List.isPrefixOf_iff_prefix] at hc
        exact h1 (by rw [List.isPrefixOf_iff_prefix]; exact hp.trans hc)
      simp only [h2, if_false]
      exact ih h

theorem openVar_prefix_varTok (k : Str) : openVar <+: varTok k :=
  ⟨' ' :: (k ++ ' ' :: closeVar), rfl⟩

theorem openVar_prefix_fieldTok (v k : Str) : openVar <+: fieldTok v k :=
  ⟨' ' :: (v ++ '.' :: (k ++ ' ' :: closeVar)), rfl⟩

theorem varTok_ne_nil (k : Str) : varTok k ≠ [] := by
  simp [varTok, openVar]

theorem fieldTok_ne_nil (v k : Str) : fieldTok v k ≠ [] := by
  simp [fieldTok, openVar]

/-- A string without `{{` is untouched by the variable-substitution pass. -/
theorem scalarPass_id (t : Str) (h : hasSub openVar t = false) :
    ∀ ctx, SimpleTemplate.scalarPass ctx t = t := by
  intro ctx
  induction ctx with
  | nil => rfl
  | cons kv rest ih =>
    simp only [SimpleTemplate.scalarPass, List.foldl_cons] at ih ⊢
    rw [replaceAll_id t (varTok kv.1) (pyStr kv.2) (varTok_ne_nil kv.1)
      (hasSub_mono openVar (varTok kv.1) (openVar_prefix_varTok kv.1) t h)]
    exact ih

theorem noBrace_append (a b : Str) :
    noBrace (a ++ b) = (noBrace a && noBrace b) := by
  simp [noBrace, List.all_append]

theorem noBrace_hasSub (s : Str) (h : noBrace s = true) : hasSub openVar s = false := by
  induction s with
  | nil => rfl
  | cons c rest ih =>
    simp only [noBrace, List.all_cons, Bool.and_eq_true, bne_iff_ne, ne_eq] at h
    simp only [hasSub, afterFirst]
    have hp : openVar.isPrefixOf (c :: rest) = false := by
      simp [openVar, List.isPrefixOf, h.1]
      intro hc
      exact absurd hc.symm h.1
    simp only [hp, if_false]
    exact ih (by simp [noBrace, List.all_eq_true] at h ⊢; exact h.2)

/-- Instantiating a loop body that contains no `{{` token leaves the body
unchanged, whatever the element. -/
theorem instBody_id (var : Str) (item : Value) (body : Str)
    (h : hasSub openVar body = false) :
    SimpleTemplate.instBody var item body = body := by
  have hv : replaceAll body (varTok var) (pyStr item) = body :=
    replaceAll_id body (varTok var) (pyStr item) (varTok_ne_nil var)
      (hasSub_mono openVar (varTok var) (openVar_prefix_varTok var) body h)
  cases item with
  | dict kvs =>
    clear hv
    simp only [SimpleTemplate.instBody]
    induction kvs with
    | nil => rfl
    | cons kv rest ih =>
      simp only [List.foldl_cons]
      rw [replaceAll_id body (fieldTok var kv.1) (pyStr kv.2) (fieldTok_ne_nil var kv.1)
        (hasSub_mono openVar (fieldTok var kv.1) (openVar_prefix_fieldTok var kv.1) body h)]
      exact ih
  | str s => exact hv
  | int n => exact hv
  | bool b => exact hv
  | none => exact hv
  | list xs => exact hv

theorem eat_cons_ne (x : Char) (xs : Str) (c : Char) (rest : Str) (h : x ≠ c) :
    eat (x :: xs) (c :: rest) = Option.none := by
  have hb : (x == c) = false := beq_eq_false_iff_ne.mpr h
  simp [eat, List.isPrefixOf, hb]

theorem eat_openTag_none (c : Char) (rest : Str) (h : c ≠ '{') :
    eat openTag (c :: rest) = Option.none := by
  rw [show openTag = '{' :: ['%'] from rfl]
  exact eat_cons_ne '{' ['%'] c rest (fun hc => h hc.symm)

theorem matchForAt_none (c : Char) (rest : Str) (h : c ≠ '{') :
    matchForAt (c :: rest) = Option.none := by
  simp [matchForAt, eat_openTag_none c rest h]

theorem matchIfAt_none (c : Char) (rest : Str) (h : c ≠ '{') :
    matchIfAt (c :: rest) = Option.none := by
  simp [matchIfAt, eat_openTag_none c rest h]

theorem matchEndforAt_none (c : Char) (rest : Str) (h : c ≠ '{') :
    matchEndforAt (c :: rest) = Option.none := by
  simp [matchEndforAt, eat_openTag_none c rest h]

theorem matchEndifAt_none (c : Char) (rest : Str) (h : c ≠ '{') :
    matchEndifAt (c :: rest) = Option.none := by
  simp [matchEndifAt, eat_openTag_none c rest h]

theorem matchDelAt_none (x : Char) (xs cls : Str) (c : Char) (rest : Str) (h : x ≠ c) :
    matchDelAt (x :: xs) cls (c :: rest) = Option.none := by
  simp [matchDelAt, eat_cons_ne x xs c rest h]

theorem forMatcher_none (ctx : Context) (c : Char) (rest : Str) (h : c ≠ '{') :
    SimpleTemplate.forMatcher ctx (c :: rest) = Option.none := by
  simp [SimpleTemplate.forMatcher, matchForAt_none c rest h]

theorem ifMatcher_none (ctx : Context) (c : Char) (rest : Str) (h : c ≠ '{') :
    SimpleTemplate.ifMatcher ctx (c :: rest) = Option.none := by
  simp [SimpleTemplate.ifMatcher, matchIfAt_none c rest h]

theorem delMatcher_openTag_none (ctx : Context) (c : Char) (rest : Str) (h : c ≠ '{') :
    SimpleTemplate.delMatcher openTag closeTag ctx (c :: rest) = Option.none := by
  have hd : matchDelAt openTag closeTag (c :: rest) = Option.none := by
    rw [show openTag = '{' :: ['%'] from rfl]
    exact matchDelAt_none '{' ['%'] closeTag c rest (fun hc => h hc.symm)
  simp [SimpleTemplate.delMatcher, hd]

theorem delMatcher_openVar_none (ctx : Context) (c : Char) (rest : Str) (h : c ≠ '{') :
    SimpleTemplate.delMatcher openVar closeVar ctx (c :: rest) = Option.none := by
  have hd : matchDelAt openVar closeVar (c :: rest) = Option.none := by
    rw [show openVar = '{' :: ['{'] from rfl]
    exact matchDelAt_none '{' ['{'] closeVar c rest (fun hc => h hc.symm)
  simp [SimpleTemplate.delMatcher, hd]

theorem noBrace_head (c : Char) (rest : Str) (h : noBrace (c :: rest) = true) :
    c ≠ '{' ∧ noBrace rest = true := by
  simp only [noBrace, List.all_cons, Bool.and_eq_true, bne_iff_ne, ne_eq] at h
  exact ⟨h.1, by simp [noBrace, List.all_eq_true]; simp [List.all_eq_true] at h; exact h.2⟩

/-- A scan whose matcher needs a leading `{` leaves a brace-free string alone. -/
theorem reSubCtx_clean (m : Context → Str → Option (Str × Context × Str))
    (Hm : ∀ ctx c rest, c ≠ '{' → m ctx (c :: rest) = Option.none) :
    ∀ s fuel ctx, noBrace s = true → reSubCtx m fuel ctx s = (s, ctx) := by
  intro s
  induction s with
  | nil => intro fuel ctx _; cases fuel <;> rfl
  | cons c rest ih =>
    intro fuel ctx h
    obtain ⟨hc, hrest⟩ := noBrace_head c rest h
    cases fuel with
    | zero => rfl
    | succ fuel =>
      simp only [reSubCtx, Hm ctx c rest hc]
      rw [ih fuel ctx hrest]

/-- A scan walks over a brace-free prefix without matching inside it. -/
theorem reSubCtx_append (m : Context → Str → Option (Str × Context × Str))
    (Hm : ∀ ctx c rest, c ≠ '{' → m ctx (c :: rest) = Option.none) :
    ∀ w n ctx rest, noBrace w = true →
      reSubCtx m (w.length + n) ctx (w ++ rest)
        = (w ++ (reSubCtx m n ctx rest).1, (reSubCtx m n ctx rest).2) := by
  intro w
  induction w with
  | nil => intro n ctx rest _; simp
  | cons c w ih =>
    intro n ctx rest h
    obtain ⟨hc, hw⟩ := noBrace_head c w h
    have hlen : (c :: w).length + n = (w.length + n) + 1 := by
      simp [List.length_cons]; omega
    rw [hlen, List.cons_append]
    simp only [reSubCtx, Hm ctx c (w ++ rest) hc]
    rw [ih n ctx rest hw]
    simp

/-- The body scan walks over a brace-free prefix without finding the closing
token inside it. -/
theorem scanBody_append (endM : Str → Option Str)
    (He : ∀ c rest, c ≠ '{' → endM (c :: rest) = Option.none) :
    ∀ w rest, noBrace w = true →
      scanBody endM (w ++ rest) = (scanBody endM rest).map (fun ba => (w ++ ba.1, ba.2)) := by
  intro w
  induction w with
  | nil =>
    intro rest _
    cases hs : scanBody endM rest <;> simp [hs]
  | cons c w ih =>
    intro rest h
    obtain ⟨hc, hw⟩ := noBrace_head c w h
    rw [List.cons_append]
    simp only [scanBody, He c (w ++ rest) hc]
    rw [ih rest hw]
    cases hs : scanBody endM rest <;> simp [hs]

/-- The inner fold of `replace_for`: outputs appended in element order, context
returned unchanged. -/
theorem replaceForS_fold (var body : Str) (items : List Value) :
    ∀ (out : List Str) (ctx : Context),
      items.foldl
        (fun acc item =>
          let loopContext := ctxSet acc.2 var item
          let bodyResult := SimpleTemplate.instBody var item body
          let _ := loopContext
          (acc.1 ++ [bodyResult], acc.2)) (out, ctx)
      = (out ++ items.map (fun it => SimpleTemplate.instBody var it body), ctx) := by
  induction items with
  | nil => intro out ctx; simp
  | cons it rest ih =>
    intro out ctx
    simp only [List.foldl_cons, List.map_cons]
    rw [ih]
    simp

theorem replaceForS_list (ctx : Context) (var lst body : Str) (items : List Value)
    (h : ctxGet ctx lst = some (.list items)) :
    SimpleTemplate.replaceForS ctx var lst body
      = ((items.map (fun it => SimpleTemplate.instBody var it body)).flatten, ctx) := by
  simp only [SimpleTemplate.replaceForS, h]
  rw [replaceForS_fold]
  simp

theorem replaceForS_ctx (ctx : Context) (var lst body : Str) :
    (SimpleTemplate.replaceForS ctx var lst body).2 = ctx := by
  cases h : ctxGet ctx lst with
  | none => simp [SimpleTemplate.replaceForS, h]
  | some v =>
    cases v with
    | list items => rw [replaceForS_list ctx var lst body items h]
    | str s => simp [SimpleTemplate.replaceForS, h]
    | int n => simp [SimpleTemplate.replaceForS, h]
    | bool b => simp [SimpleTemplate.replaceForS, h]
    | none => simp [SimpleTemplate.replaceForS, h]
    | dict kvs => simp [SimpleTemplate.replaceForS, h]

theorem forMatcher_ctx (ctx : Context) (s r : Str) (c' : Context) (a : Str)
    (h : SimpleTemplate.forMatcher ctx s = some (r, c', a)) : c' = ctx := by
  cases hm : matchForAt s with
  | none => rw [SimpleTemplate.forMatcher, hm] at h; simp at h
  | some q =>
    obtain ⟨var, lst, body, after⟩ := q
    rw [SimpleTemplate.forMatcher, hm] at h
    simp at h
    rw [← h.2.1, replaceForS_ctx]

theorem ifMatcher_ctx (ctx : Context) (s r : Str) (c' : Context) (a : Str)
    (h : SimpleTemplate.ifMatcher ctx s = some (r, c', a)) : c' = ctx := by
  cases hm : matchIfAt s with
  | none => rw [SimpleTemplate.ifMatcher, hm] at h; simp at h
  | some q =>
    obtain ⟨cond, body, after⟩ := q
    rw [SimpleTemplate.ifMatcher, hm] at h
    simp at h
    exact h.2.1.symm

/-- A scan whose matcher hands the context through unchanged returns it
unchanged. -/
theorem reSubCtx_ctx (m : Context → Str → Option (Str × Context × Str))
    (Hm : ∀ ctx s r c' a, m ctx s = some (r, c', a) → c' = ctx) :
    ∀ fuel ctx s, (reSubCtx m fuel ctx s).2 = ctx := by
  intro fuel
  induction fuel with
  | zero => intro ctx s; cases s <;> rfl
  | succ fuel ih =>
    intro ctx s
    cases s with
    | nil => rfl
    | cons c rest =>
      cases hm : m ctx (c :: rest) with
      | none => simp only [reSubCtx, hm]; exact ih ctx rest
      | some rca =>
        obtain ⟨r, c', a⟩ := rca
        simp only [reSubCtx, hm]
        rw [ih c' a, Hm ctx (c :: rest) r c' a hm]

theorem forPass_ctx (ctx : Context) (s : Str) :
    (SimpleTemplate.forPass ctx s).2 = ctx :=
  reSubCtx_ctx SimpleTemplate.forMatcher forMatcher_ctx s.length ctx s

theorem ifPass_ctx (ctx : Context) (s : Str) :
    (SimpleTemplate.ifPass ctx s).2 = ctx :=
  reSubCtx_ctx SimpleTemplate.ifMatcher ifMatcher_ctx s.length ctx s

/-- Theorem: `render` hands the caller's context back exactly as it received it. -/
theorem renderS_ctx (t : Str) (c : Context) : (SimpleTemplate.renderS t c).2 = c := by
  simp only [SimpleTemplate.renderS]
  rw [ifPass_ctx, forPass_ctx]

theorem forPass_clean (ctx : Context) (s : Str) (h : noBrace s = true) :
    SimpleTemplate.forPass ctx s = (s, ctx) :=
  reSubCtx_clean SimpleTemplate.forMatcher forMatcher_none s s.length ctx h

theorem ifPass_clean (ctx : Context) (s : Str) (h : noBrace s = true) :
    SimpleTemplate.ifPass ctx s = (s, ctx) :=
  reSubCtx_clean SimpleTemplate.ifMatcher ifMatcher_none s s.length ctx h

theorem delPass_openTag_clean (s : Str) (h : noBrace s = true) :
    SimpleTemplate.delPass openTag closeTag s = s := by
  simp only [SimpleTemplate.delPass]
  rw [reSubCtx_clean (SimpleTemplate.delMatcher openTag closeTag)
    delMatcher_openTag_none s s.length [] h]

theorem delPass_openVar_clean (s : Str) (h : noBrace s = true) :
    SimpleTemplate.delPass openVar closeVar s = s := by
  simp only [SimpleTemplate.delPass]
  rw [reSubCtx_clean (SimpleTemplate.delMatcher openVar closeVar)
    delMatcher_openVar_none s s.length [] h]

/-- When the variable-substitution pass yields a brace-free string, the later
passes do nothing: `render` returns it as is. -/
theorem render_of_scalar_noBrace (t u : Str) (ctx : Context)
    (h : SimpleTemplate.scalarPass ctx t = u) (hu : noBrace u = true) :
    SimpleTemplate.render t ctx = u := by
  simp only [SimpleTemplate.render, SimpleTemplate.renderS, h]
  rw [forPass_clean ctx u hu]
  simp only
  rw [ifPass_clean ctx u hu]
  simp only
  rw [delPass_openTag_clean u hu, delPass_openVar_clean u hu]

theorem reSubCtx_nil (m : Context → Str → Option (Str × Context × Str))
    (fuel : Nat) (ctx : Context) : reSubCtx m fuel ctx [] = ([], ctx) := by
  cases fuel <;> rfl

theorem reSubCtx_head_match (m : Context → Str → Option (Str × Context × Str))
    (fuel : Nat) (ctx : Context) (c : Char) (rest rep : Str) (ctx' : Context) (after : Str)
    (hm : m ctx (c :: rest) = some (rep, ctx', after)) :
    reSubCtx m (fuel + 1) ctx (c :: rest)
      = (rep ++ (reSubCtx m fuel ctx' after).1, (reSubCtx m fuel ctx' after).2) := by
  simp only [reSubCtx, hm]

theorem noBrace_flatten_const (body : Str) (h : noBrace body = true) (items : List Value) :
    noBrace ((items.map (fun _ => body)).flatten) = true := by
  induction items with
  | nil => rfl
  | cons it rest ih => simpa [List.flatten_cons, noBrace_append, h] using ih

/-! ## The claims -/

/-- C1: `render(template, context)` is total: for every template string and
every context mapping — missing keys, malformed directives and non-sequence
loop targets included — it returns a string (and hands the context back), with
no failure outcome in the embedding. -/
theorem C1_render_total (template : Str) (context : Context) :
    ∃ out : Str, SimpleTemplate.renderS template context = (out, context) :=
  ⟨SimpleTemplate.render template context,
    Prod.ext rfl (renderS_ctx template context)⟩

/-- C7: `render` is deterministic: identical (template, context) pairs produce
identical output strings. -/
theorem C7_render_deterministic (t₁ t₂ : Str) (c₁ c₂ : Context)
    (ht : t₁ = t₂) (hc : c₁ = c₂) :
    SimpleTemplate.render t₁ c₁ = SimpleTemplate.render t₂ c₂ := by
  rw [ht, hc]

theorem C7_render_deterministic_witness :
    SimpleTemplate.render (tS "Hello {{ name }}!") [(tS "name", .str (tS "World"))]
      = SimpleTemplate.render (tS "Hello {{ name }}!") [(tS "name", .str (tS "World"))] :=
  C7_render_deterministic _ _ _ _ rfl rfl

/-- C8: `render` has no side effect on its inputs: the context mapping (with
everything it contains) is exactly as it was after the call. -/
theorem C8_render_no_mutation (template : Str) (context : Context) :
    (SimpleTemplate.renderS template context).2 = context :=
  renderS_ctx template context

/-- C2: loop blocks.  When the list name is bound to a sequence, the matched
block is replaced by one instantiated body per element, concatenated in
sequence order (`{{ v }}` resolved to a scalar element's string form,
`{{ v.field }}` to a record's fields); when the name is absent or its value is
not a sequence, the block contributes the empty string.  Checked both on the
block-replacement function `replaceForS` (for all contexts and bodies) and on
`render` end to end: `[1][2][3]` in that order, record fields (`a;b;`), a
missing record field rendering empty (`;`), and the empty outputs. -/
theorem C2_loop_block :
    (∀ (ctx : Context) (var lst body : Str),
      (∀ items, ctxGet ctx lst = some (.list items) →
        SimpleTemplate.replaceForS ctx var lst body
          = ((items.map (fun it => SimpleTemplate.instBody var it body)).flatten, ctx))
      ∧ (ctxGet ctx lst = Option.none →
          SimpleTemplate.replaceForS ctx var lst body = ([], ctx))
      ∧ (∀ v, ctxGet ctx lst = some v → (∀ items, v ≠ .list items) →
          SimpleTemplate.replaceForS ctx var lst body = ([], ctx)))
    ∧ SimpleTemplate.render (tS "{% for x in items %}[{{ x }}]{% endfor %}")
        [(tS "items", .list [.int 1, .int 2, .int 3])] = tS "[1][2][3]"
    ∧ SimpleTemplate.render (tS "{% for p in plugins %}{{ p.name }};{% endfor %}")
        [(tS "plugins", .list [.dict [(tS "name", .str (tS "a"))],
                               .dict [(tS "name", .str (tS "b"))]])] = tS "a;b;"
    ∧ SimpleTemplate.render (tS "{% for p in ps %}{{ p.name }};{% endfor %}")
        [(tS "ps", .list [.dict [(tS "x", .int 1)]])] = tS ";"
    ∧ SimpleTemplate.render (tS "{% for x in items %}[{{ x }}]{% endfor %}")
        [(tS "items", .list [])] = tS ""
    ∧ SimpleTemplate.render (tS "{% for x in items %}[{{ x }}]{% endfor %}")
        [(tS "items", .int 7)] = tS ""
    ∧ SimpleTemplate.render (tS "{% for x in items %}[{{ x }}]{% endfor %}") [] = tS "" := by
  refine ⟨?_, by decide, by decide, by decide, by decide, by decide, by decide⟩
  intro ctx var lst body
  refine ⟨fun items h => replaceForS_list ctx var lst body items h, ?_, ?_⟩
  · intro h
    simp [SimpleTemplate.replaceForS, h]
  · intro v h hne
    cases v with
    | list items => exact absurd rfl (hne items)
    | str s => simp [SimpleTemplate.replaceForS, h]
    | int n => simp [SimpleTemplate.replaceForS, h]
    | bool b => simp [SimpleTemplate.replaceForS, h]
    | none => simp [SimpleTemplate.replaceForS, h]
    | dict kvs => simp [SimpleTemplate.replaceForS, h]

theorem C2_loop_block_witness :
    SimpleTemplate.replaceForS [(tS "xs", .list [.int 7])] (tS "i") (tS "xs") (tS "B")
      = (([(.int 7 : Value)].map
          (fun it => SimpleTemplate.instBody (tS "i") it (tS "B"))).flatten,
         [(tS "xs", .list [.int 7])]) :=
  (C2_loop_block.1 [(tS "xs", .list [.int 7])] (tS "i") (tS "xs") (tS "B")).1
    [.int 7] rfl

/-- C3: top-level scalar references.  A bound name is replaced by the value's
string conversion, an unbound one renders as the empty string: the two contract
examples hold, and in general substituting any brace-free string value `w` for
`name` renders `Hello w!`. -/
theorem C3_scalar_reference :
    SimpleTemplate.render (tS "Hello {{ name }}!")
        [(tS "name", .str (tS "World"))] = tS "Hello World!"
    ∧ SimpleTemplate.render (tS "Hello {{ name }}!") [] = tS "Hello !"
    ∧ ∀ w : Str, noBrace w = true →
        SimpleTemplate.render (tS "Hello {{ name }}!") [(tS "name", .str w)]
          = tS "Hello " ++ (w ++ tS "!") := by
  refine ⟨by decide, by decide, ?_⟩
  intro w hw
  have h : SimpleTemplate.scalarPass [(tS "name", .str w)] (tS "Hello {{ name }}!")
      = tS "Hello " ++ (w ++ tS "!") := rfl
  have hu : noBrace (tS "Hello " ++ (w ++ tS "!")) = true := by
    rw [noBrace_append, noBrace_append, hw]
    decide
  exact render_of_scalar_noBrace _ _ _ h hu

theorem C3_scalar_reference_witness :
    SimpleTemplate.render (tS "Hello {{ name }}!") [(tS "name", .str (tS "World"))]
      = tS "Hello " ++ (tS "World" ++ tS "!") :=
  C3_scalar_reference.2.2 (tS "World") (by decide)

/-- C4: conditional blocks.  The block collapses to its body exactly when the
condition names a truthy context entry, and to the empty string when the entry
is falsy or absent — on the block-replacement function `replaceIf` for all
contexts and bodies, and on `render` for the three contract examples. -/
theorem C4_conditional_block :
    (∀ (ctx : Context) (cond body : Str),
      (∀ v, ctxGet ctx cond = some v → pyTruthy v = true →
          SimpleTemplate.replaceIf ctx cond body = body)
      ∧ (∀ v, ctxGet ctx cond = some v → pyTruthy v = false →
          SimpleTemplate.replaceIf ctx cond body = [])
      ∧ (ctxGet ctx cond = Option.none → SimpleTemplate.replaceIf ctx cond body = []))
    ∧ SimpleTemplate.render (tS "{% if show %}Visible{% endif %}")
        [(tS "show", .bool true)] = tS "Visible"
    ∧ SimpleTemplate.render (tS "{% if show %}Visible{% endif %}")
        [(tS "show", .bool false)] = tS ""
    ∧ SimpleTemplate.render (tS "{% if show %}Visible{% endif %}") [] = tS "" := by
  refine ⟨?_, by decide, by decide, by decide⟩
  intro ctx cond body
  refine ⟨?_, ?_, ?_⟩
  · intro v h ht
    simp [SimpleTemplate.replaceIf, h, ht]
  · intro v h ht
    simp [SimpleTemplate.replaceIf, h, ht]
  · intro h
    simp [SimpleTemplate.replaceIf, h]

theorem C4_conditional_block_witness :
    SimpleTemplate.replaceIf [(tS "show", .bool true)] (tS "show") (tS "B") = tS "B" :=
  (C4_conditional_block.1 [(tS "show", .bool true)] (tS "show") (tS "B")).1
    (.bool true) rfl rfl

/-- C5 counterexample: an `{% if %}` block inside a `{% for %}` body is *not*
stripped as dead syntax.  The loop stage's lazy body ends at the first
`{% endfor %}`, so the whole inner block lands in the loop body and is copied
per element; the conditional stage then evaluates every copy.  With `show`
truthy the claim predicts empty output for the inner directive, but the render
is `"AA"` (and `≠ ""`). -/
theorem C5_counterexample :
    SimpleTemplate.render (tS "{% for x in items %}{% if show %}A{% endif %}{% endfor %}")
        [(tS "items", .list [.int 1, .int 2]), (tS "show", .bool true)] = tS "AA"
    ∧ SimpleTemplate.render (tS "{% for x in items %}{% if show %}A{% endif %}{% endfor %}")
        [(tS "items", .list [.int 1, .int 2]), (tS "show", .bool true)] ≠ ([] : Str) := by
  exact ⟨by decide, by decide⟩

/-- C5 (amended): nested directives are not *recognized* as nested, but the
inner text is not uniformly stripped to empty.  An `{% if %}` inside a
`{% for %}` body is copied per element by the loop stage and then evaluated as
a top-level conditional by the conditional stage (body text per copy when
truthy, empty when falsy); an inner `{% for %}` inside a `{% for %}` body loses
its `{% endfor %}` pairing, is never evaluated, and only its header token is
stripped by the cleanup (its body text leaks once per outer element, whatever
the inner sequence is); an `{% if %}` inside a truthy `{% if %}` body keeps its
body text and only its tokens are stripped, whatever the inner condition is. -/
theorem C5_nested_directives :
    SimpleTemplate.render (tS "{% for x in items %}{% if show %}A{% endif %}{% endfor %}")
        [(tS "items", .list [.int 1, .int 2]), (tS "show", .bool true)] = tS "AA"
    ∧ SimpleTemplate.render (tS "{% for x in items %}{% if show %}A{% endif %}{% endfor %}")
        [(tS "items", .list [.int 1, .int 2]), (tS "show", .bool false)] = tS ""
    ∧ SimpleTemplate.render (tS "{% for x in xs %}{% for y in ys %}A{% endfor %}{% endfor %}")
        [(tS "xs", .list [.int 1, .int 2]), (tS "ys", .list [.int 1, .int 2, .int 3])]
      = tS "AA"
    ∧ SimpleTemplate.render (tS "{% if a %}{% if b %}X{% endif %}{% endif %}")
        [(tS "a", .bool true), (tS "b", .bool false)] = tS "X" := by
  exact ⟨by decide, by decide, by decide, by decide⟩

/-- C6 counterexample: the cleanup regexes are applied without `re.DOTALL`, so a
leftover `{%`…`%}` span containing a newline survives both cleanup scans: the
template `"{%\n%}"` (which no directive stage matches) renders to itself, and
the output contains a `{%`…`%}` span. -/
theorem C6_counterexample :
    SimpleTemplate.render ['{', '%', '\n', '%', '}'] [] = ['{', '%', '\n', '%', '}']
    ∧ hasSpan openTag closeTag (SimpleTemplate.render ['{', '%', '\n', '%', '}'] []) = true := by
  exact ⟨by decide, by decide⟩

/-- C6 (amended): the cleanup pass is best effort.  A newline-free leftover
directive span that the left-to-right scan meets intact is deleted — in
particular the malformed `{% for %}` with no matching `{% endfor %}` renders to
the empty string for *every* context — but directive syntax can remain in the
output: a span containing a newline is not matched by the non-DOTALL cleanup
patterns, and deleting a span can splice the surrounding characters into a new
directive-looking span (`"{{%a%}%X%}"` renders to `"{%X%}"`). -/
theorem C6_cleanup_best_effort :
    (∀ ctx : Context, SimpleTemplate.render (tS "{% for %}") ctx = [])
    ∧ SimpleTemplate.render ['{', '%', '\n', '%', '}'] [] = ['{', '%', '\n', '%', '}']
    ∧ SimpleTemplate.render (tS "{{%a%}%X%}") [] = tS "{%X%}" := by
  refine ⟨?_, by decide, by decide⟩
  intro ctx
  have h : SimpleTemplate.scalarPass ctx (tS "{% for %}") = tS "{% for %}" :=
    scalarPass_id (tS "{% for %}") (by decide) ctx
  simp only [SimpleTemplate.render, SimpleTemplate.renderS, h]
  rfl

/-- C9 counterexample: `build_context` calls `datetime.now()` for the `now`
entry, so two invocations over the same marketplace data and the same files
(but at different clock readings) produce different context mappings. -/
theorem C9_counterexample :
    DocGenerator.build_context [] [] (tS "2024-01-01 00:00:00")
      ≠ DocGenerator.build_context [] [] (tS "2024-01-02 00:00:00") := by
  intro h
  have h2 := congrArg (Option.map nowStrOf) h
  exact absurd h2 (by decide)

/-- C9 (amended): `build_context` is deterministic given the catalog document,
the filesystem state *and* the clock reading: equal inputs including the
timestamp give equal contexts, and everything apart from the `now` entry is
determined by the catalog and filesystem alone. -/
theorem C9_deterministic_given_time (data : List (Str × Value)) (fs : FS) (n₁ n₂ : Str) :
    (n₁ = n₂ →
      DocGenerator.build_context data fs n₁ = DocGenerator.build_context data fs n₂)
    ∧ (DocGenerator.build_context data fs n₁).map ctxDropNow
        = (DocGenerator.build_context data fs n₂).map ctxDropNow := by
  have hassemble : ∀ (k : Nat) (acc : DocGenerator.BAcc),
      ctxDropNow (DocGenerator.assembleContext data n₁ k acc)
        = ctxDropNow (DocGenerator.assembleContext data n₂ k acc) := fun k acc => rfl
  refine ⟨fun h => by rw [h], ?_⟩
  cases hp : ctxGet data (tS "plugins") with
  | none =>
    simp only [DocGenerator.build_context, hp, Option.map]
    exact congrArg some (hassemble 0 _)
  | some v =>
    cases v with
    | list plugins =>
      simp only [DocGenerator.build_context, hp]
      cases hf : plugins.foldlM (DocGenerator.processPlugin fs)
          (⟨[], [], [], [], 0, 0, 0⟩ : DocGenerator.BAcc) with
      | none => rfl
      | some acc =>
        simp only [Option.map]
        exact congrArg some (hassemble plugins.length acc)
    | str s => simp only [DocGenerator.build_context, hp]
    | int n => simp only [DocGenerator.build_context, hp]
    | bool b => simp only [DocGenerator.build_context, hp]
    | none => simp only [DocGenerator.build_context, hp]
    | dict kvs => simp only [DocGenerator.build_context, hp]

theorem C9_deterministic_given_time_witness :
    DocGenerator.build_context [] [] (tS "2024-01-01 00:00:00")
      = DocGenerator.build_context [] [] (tS "2024-01-01 00:00:00") :=
  (C9_deterministic_given_time [] [] (tS "2024-01-01 00:00:00")
    (tS "2024-01-01 00:00:00")).1 rfl

theorem forPass_single_match (ctx : Context) (c : Char) (rest rep : Str)
    (hm : SimpleTemplate.forMatcher ctx (c :: rest) = some (rep, ctx, [])) :
    SimpleTemplate.forPass ctx (c :: rest) = (rep, ctx) := by
  simp only [SimpleTemplate.forPass, List.length_cons]
  rw [reSubCtx_head_match SimpleTemplate.forMatcher rest.length ctx c rest rep ctx [] hm,
      reSubCtx_nil]
  simp

/-- C10: loop-variable shadowing.  When the loop variable `x` is also a
top-level context key bound to a scalar `w`, the global scalar pass rewrites
`{{ x }}` inside the loop body before loop expansion, so the loop emits the
string form of `w` once per element of the sequence — for *every* sequence, the
elements' own values never appear (for any brace-free `w`). -/
theorem C10_loop_variable_shadowing (w : Str) (items : List Value)
    (hw : noBrace w = true) :
    SimpleTemplate.render (tS "{% for x in items %}[{{ x }}]{% endfor %}")
        [(tS "items", .list items), (tS "x", .str w)]
      = (items.map (fun _ => '[' :: (w ++ [']']))).flatten := by
  have hbody : noBrace ('[' :: (w ++ [']'])) = true := by
    rw [show ('[' :: (w ++ [']'])) = ['['] ++ (w ++ [']']) from rfl,
        noBrace_append, noBrace_append, hw]
    decide
  have h2 : matchEndforAt ('[' :: (w ++ tS "]{% endfor %}")) = Option.none :=
    matchEndforAt_none '[' (w ++ tS "]{% endfor %}") (by decide)
  have hsb : scanBody matchEndforAt ('[' :: (w ++ tS "]{% endfor %}"))
      = some ('[' :: (w ++ [']']), []) := by
    simp only [scanBody, h2]
    rw [scanBody_append matchEndforAt matchEndforAt_none w (tS "]{% endfor %}") hw]
    rfl
  have hstep : matchForAt (tS "{% for x in items %}" ++ ('[' :: (w ++ tS "]{% endfor %}")))
      = (scanBody matchEndforAt ('[' :: (w ++ tS "]{% endfor %}"))).bind
          (fun ba => some (tS "x", tS "items", ba.1, ba.2)) := rfl
  have hmatch : matchForAt (tS "{% for x in items %}" ++ ('[' :: (w ++ tS "]{% endfor %}")))
      = some (tS "x", tS "items", '[' :: (w ++ [']']), []) := by
    rw [hstep, hsb]
    rfl
  have hget : ctxGet [(tS "items", Value.list items), (tS "x", Value.str w)] (tS "items")
      = some (Value.list items) := rfl
  have hinst : items.map (fun it => SimpleTemplate.instBody (tS "x") it ('[' :: (w ++ [']'])))
      = items.map (fun _ => '[' :: (w ++ [']'])) :=
    List.map_congr_left (fun it _ => instBody_id (tS "x") it _ (noBrace_hasSub _ hbody))
  have hfm : SimpleTemplate.forMatcher [(tS "items", Value.list items), (tS "x", Value.str w)]
        (tS "{% for x in items %}" ++ ('[' :: (w ++ tS "]{% endfor %}")))
      = some ((items.map (fun _ => '[' :: (w ++ [']']))).flatten,
              [(tS "items", Value.list items), (tS "x", Value.str w)], []) := by
    simp only [SimpleTemplate.forMatcher, hmatch, Option.map]
    rw [replaceForS_list _ _ _ _ items hget, hinst]
  have hfor : SimpleTemplate.forPass [(tS "items", Value.list items), (tS "x", Value.str w)]
        (tS "{% for x in items %}" ++ ('[' :: (w ++ tS "]{% endfor %}")))
      = ((items.map (fun _ => '[' :: (w ++ [']']))).flatten,
         [(tS "items", Value.list items), (tS "x", Value.str w)]) :=
    forPass_single_match _ _ _ _ hfm
  have hscalar : SimpleTemplate.scalarPass
        [(tS "items", Value.list items), (tS "x", Value.str w)]
        (tS "{% for x in items %}[{{ x }}]{% endfor %}")
      = tS "{% for x in items %}" ++ ('[' :: (w ++ tS "]{% endfor %}")) := by
    show replaceAll (replaceAll (tS "{% for x in items %}[{{ x }}]{% endfor %}")
          (varTok (tS "items")) (pyStr (Value.list items)))
        (varTok (tS "x")) (pyStr (Value.str w)) = _
    rw [replaceAll_id _ (varTok (tS "items")) _ (varTok_ne_nil _) (by decide)]
    rfl
  have hnb : noBrace ((items.map (fun _ => '[' :: (w ++ [']']))).flatten) = true :=
    noBrace_flatten_const _ hbody items
  simp only [SimpleTemplate.render, SimpleTemplate.renderS, hscalar]
  rw [hfor]
  simp only
  rw [ifPass_clean _ _ hnb]
  simp only
  rw [delPass_openTag_clean _ hnb, delPass_openVar_clean _ hnb]

theorem C10_loop_variable_shadowing_witness :
    noBrace (tS "S") = true
    ∧ SimpleTemplate.render (tS "{% for x in items %}[{{ x }}]{% endfor %}")
        [(tS "items", .list [.int 1, .int 2]), (tS "x", .str (tS "S"))]
      = (([Value.int 1, Value.int 2].map (fun _ => '[' :: (tS "S" ++ [']']))).flatten) :=
  ⟨by decide, C10_loop_variable_shadowing (tS "S") [.int 1, .int 2] (by decide)⟩

/-! ## Fuel adequacy

The fuelled scans (`replaceGo`, `reSubCtx`) are always started with the length
of their input as fuel.  The lemmas below show that every successful match
consumes at least one character, so that much fuel is never exhausted: the
functions compute exactly the unbounded left-to-right scans of the source. -/

theorem eat_length (lit s t : Str) (h : eat lit s = some t) :
    t.length + lit.length = s.length := by
  simp only [eat] at h
  split at h
  · next hp =>
    injection h with h
    subst h
    have hle : lit.length ≤ s.length := (List.isPrefixOf_iff_prefix.mp hp).length_le
    rw [List.length_drop]
    omega
  · exact absurd h (by simp)

theorem eatSpaces_length (s : Str) : (eatSpaces s).length ≤ s.length :=
  (List.dropWhile_sublist _).length_le

theorem eatSpaces1_length (s t : Str) (h : eatSpaces1 s = some t) : t.length < s.length := by
  cases s with
  | nil => exact absurd h (by simp [eatSpaces1])
  | cons c rest =>
    simp only [eatSpaces1] at h
    split at h
    · injection h with h
      subst h
      have := (List.dropWhile_sublist (l := rest) (p := isPySpace)).length_le
      simp only [List.length_cons]
      omega
    · exact absurd h (by simp)

theorem eatWord_length (s w t : Str) (h : eatWord s = some (w, t)) : t.length ≤ s.length := by
  simp only [eatWord] at h
  split at h
  · exact absurd h (by simp)
  · next heq =>
    injection h with h
    rw [Prod.mk.injEq] at h
    rw [← h.2, List.length_drop]
    omega

theorem scanShort_length (close : Str) (hc : close ≠ []) :
    ∀ s a, scanShort close s = some a → a.length < s.length := by
  intro s
  induction s with
  | nil => intro a h; exact absurd h (by simp [scanShort])
  | cons c rest ih =>
    intro a h
    simp only [scanShort] at h
    split at h
    · next hp =>
      injection h with h
      subst h
      have hle : close.length ≤ (c :: rest).length :=
        (List.isPrefixOf_iff_prefix.mp hp).length_le
      have hpos : 0 < close.length := List.length_pos.mpr hc
      rw [List.length_drop]
      omega
    · split at h
      · exact absurd h (by simp)
      · have := ih a h
        simp only [List.length_cons]
        omega

theorem scanBody_length (endM : Str → Option Str)
    (He : ∀ s a, endM s = some a → a.length < s.length) :
    ∀ s b a, scanBody endM s = some (b, a) → a.length < s.length := by
  intro s
  induction s with
  | nil => intro b a h; exact absurd h (by simp [scanBody])
  | cons c rest ih =>
    intro b a h
    simp only [scanBody] at h
    cases he : endM (c :: rest) with
    | some after =>
      rw [he] at h
      injection h with h
      rw [Prod.mk.injEq] at h
      rw [← h.2]
      exact He (c :: rest) after he
    | none =>
      rw [he] at h
      simp only [Option.map_eq_some'] at h
      obtain ⟨⟨b', a'⟩, hsb, heq⟩ := h
      rw [Prod.mk.injEq] at heq
      have := ih b' a' hsb
      rw [← heq.2]
      simp only [List.length_cons]
      omega

theorem matchEndforAt_length (s a : Str) (h : matchEndforAt s = some a) :
    a.length < s.length := by
  unfold matchEndforAt at h
  simp only [bind, Option.bind_eq_some] at h
  obtain ⟨s1, h1, h⟩ := h
  obtain ⟨s2, h2, h⟩ := h
  have e1 := eat_length openTag s s1 h1
  have e2 := eat_length (tS "endfor") (eatSpaces s1) s2 h2
  have e3 := eat_length closeTag (eatSpaces s2) a h
  have d1 := eatSpaces_length s1
  have d2 := eatSpaces_length s2
  simp only [show openTag.length = 2 from rfl, show (tS "endfor").length = 6 from rfl,
    show closeTag.length = 2 from rfl] at e1 e2 e3
  omega

theorem matchEndifAt_length (s a : Str) (h : matchEndifAt s = some a) :
    a.length < s.length := by
  unfold matchEndifAt at h
  simp only [bind, Option.bind_eq_some] at h
  obtain ⟨s1, h1, h⟩ := h
  obtain ⟨s2, h2, h⟩ := h
  have e1 := eat_length openTag s s1 h1
  have e2 := eat_length (tS "endif") (eatSpaces s1) s2 h2
  have e3 := eat_length closeTag (eatSpaces s2) a h
  have d1 := eatSpaces_length s1
  have d2 := eatSpaces_length s2
  simp only [show openTag.length = 2 from rfl, show (tS "endif").length = 5 from rfl,
    show closeTag.length = 2 from rfl] at e1 e2 e3
  omega

theorem matchDelAt_length (opn cls : Str) (hc : cls ≠ []) (s a : Str)
    (h : matchDelAt opn cls s = some a) : a.length < s.length := by
  unfold matchDelAt at h
  simp only [bind, Option.bind_eq_some] at h
  obtain ⟨s1, h1, h⟩ := h
  have e1 := eat_length opn s s1 h1
  have e2 := scanShort_length cls hc s1 a h
  omega

theorem matchForAt_length (s : Str) (v l b a : Str)
    (h : matchForAt s = some (v, l, b, a)) : a.length < s.length := by
  unfold matchForAt at h
  simp only [bind, pure, Option.bind_eq_some, Option.some.injEq, Prod.mk.injEq,
    Prod.exists] at h
  obtain ⟨s1, h1, h⟩ := h
  obtain ⟨s2, h2, h⟩ := h
  obtain ⟨s3, h3, h⟩ := h
  obtain ⟨v', s4, h4, h⟩ := h
  obtain ⟨s5, h5, h⟩ := h
  obtain ⟨s6, h6, h⟩ := h
  obtain ⟨s7, h7, h⟩ := h
  obtain ⟨l', s8, h8, h⟩ := h
  obtain ⟨s9, h9, h⟩ := h
  obtain ⟨b', a', hsb, heq⟩ := h
  have e1 := eat_length openTag s s1 h1
  have e2 := eat_length (tS "for") (eatSpaces s1) s2 h2
  have d1 := eatSpaces_length s1
  have e3 := eatSpaces1_length s2 s3 h3
  have e4 := eatWord_length s3 v' s4 h4
  have e5 := eatSpaces1_length s4 s5 h5
  have e6 := eat_length (tS "in") s5 s6 h6
  have e7 := eatSpaces1_length s6 s7 h7
  have e8 := eatWord_length s7 l' s8 h8
  have d2 := eatSpaces_length s8
  have e9 := eat_length closeTag (eatSpaces s8) s9 h9
  have e10 := scanBody_length matchEndforAt matchEndforAt_length s9 b' a' hsb
  have ha : a' = a := heq.2.2.2
  rw [← ha]
  simp only [show openTag.length = 2 from rfl, show (tS "for").length = 3 from rfl,
    show (tS "in").length = 2 from rfl, show closeTag.length = 2 from rfl] at e1 e2 e6 e9
  omega

theorem matchIfAt_length (s : Str) (c b a : Str)
    (h : matchIfAt s = some (c, b, a)) : a.length < s.length := by
  unfold matchIfAt at h
  simp only [bind, pure, Option.bind_eq_some, Option.some.injEq, Prod.mk.injEq,
    Prod.exists] at h
  obtain ⟨s1, h1, h⟩ := h
  obtain ⟨s2, h2, h⟩ := h
  obtain ⟨s3, h3, h⟩ := h
  obtain ⟨c', s4, h4, h⟩ := h
  obtain ⟨s5, h5, h⟩ := h
  obtain ⟨b', a', hsb, heq⟩ := h
  have e1 := eat_length openTag s s1 h1
  have e2 := eat_length (tS "if") (eatSpaces s1) s2 h2
  have d1 := eatSpaces_length s1
  have e3 := eatSpaces1_length s2 s3 h3
  have e4 := eatWord_length s3 c' s4 h4
  have d2 := eatSpaces_length s4
  have e5 := eat_length closeTag (eatSpaces s4) s5 h5
  have e6 := scanBody_length matchEndifAt matchEndifAt_length s5 b' a' hsb
  have ha : a' = a := heq.2.2
  rw [← ha]
  simp only [show openTag.length = 2 from rfl, show (tS "if").length = 2 from rfl,
    show closeTag.length = 2 from rfl] at e1 e2 e5
  omega

theorem forMatcher_length (ctx : Context) (s r : Str) (c' : Context) (a : Str)
    (h : SimpleTemplate.forMatcher ctx s = some (r, c', a)) : a.length < s.length := by
  cases hm : matchForAt s with
  | none => rw [SimpleTemplate.forMatcher, hm] at h; exact absurd h (by simp)
  | some q =>
    obtain ⟨v, l, b, a'⟩ := q
    rw [SimpleTemplate.forMatcher, hm] at h
    simp at h
    rw [← h.2.2]
    exact matchForAt_length s v l b a' hm

theorem ifMatcher_length (ctx : Context) (s r : Str) (c' : Context) (a : Str)
    (h : SimpleTemplate.ifMatcher ctx s = some (r, c', a)) : a.length < s.length := by
  cases hm : matchIfAt s with
  | none => rw [SimpleTemplate.ifMatcher, hm] at h; exact absurd h (by simp)
  | some q =>
    obtain ⟨c, b, a'⟩ := q
    rw [SimpleTemplate.ifMatcher, hm] at h
    simp at h
    rw [← h.2.2]
    exact matchIfAt_length s c b a' hm

theorem delMatcher_length (opn cls : Str) (hc : cls ≠ []) (ctx : Context) (s r : Str)
    (c' : Context) (a : Str)
    (h : SimpleTemplate.delMatcher opn cls ctx s = some (r, c', a)) : a.length < s.length := by
  cases hm : matchDelAt opn cls s with
  | none => rw [SimpleTemplate.delMatcher, hm] at h; exact absurd h (by simp)
  | some a' =>
    rw [SimpleTemplate.delMatcher, hm] at h
    simp at h
    rw [← h.2.2]
    exact matchDelAt_length opn cls hc s a' hm

/-- A scan whose matcher always consumes at least one character computes the
same result under any fuel at least the input length; in particular the fuel
`s.length` that `forPass`, `ifPass` and `delPass` supply is never exhausted. -/
theorem reSubCtx_fuel (m : Context → Str → Option (Str × Context × Str))
    (Hm : ∀ ctx s r c' a, m ctx s = some (r, c', a) → a.length < s.length) :
    ∀ fuel ctx s, s.length ≤ fuel → reSubCtx m fuel ctx s = reSubCtx m s.length ctx s := by
  intro fuel
  induction fuel using Nat.strong_induction_on with
  | _ fuel ih =>
    intro ctx s hs
    cases s with
    | nil => exact (reSubCtx_nil m fuel ctx).trans (reSubCtx_nil m 0 ctx).symm
    | cons c rest =>
      cases fuel with
      | zero => simp at hs
      | succ f =>
        have hf : rest.length ≤ f := by simpa using hs
        cases hm : m ctx (c :: rest) with
        | none =>
          simp only [reSubCtx, hm, List.length_cons]
          rw [ih f (Nat.lt_succ_self f) ctx rest hf,
            ← ih rest.length (by omega) ctx rest (le_refl _)]
        | some rca =>
          obtain ⟨r, c', a⟩ := rca
          have ha : a.length < (c :: rest).length := Hm ctx (c :: rest) r c' a hm
          simp only [List.length_cons] at ha
          simp only [reSubCtx, hm, List.length_cons]
          rw [ih f (Nat.lt_succ_self f) c' a (by omega),
            ← ih rest.length (by omega) c' a (by omega)]

/-- The fuel of the variable-substitution scan is likewise never exhausted: a
match consumes the non-empty pattern. -/
theorem replaceGo_fuel (pat rep : Str) (hp : pat ≠ []) :
    ∀ fuel s, s.length ≤ fuel → replaceGo pat rep fuel s = replaceGo pat rep s.length s := by
  intro fuel
  induction fuel using Nat.strong_induction_on with
  | _ fuel ih =>
    intro s hs
    cases s with
    | nil => cases fuel <;> rfl
    | cons c rest =>
      cases fuel with
      | zero => simp at hs
      | succ f =>
        have hf : rest.length ≤ f := by simpa using hs
        have hplen : 0 < pat.length := List.length_pos.mpr hp
        have hd : (rest.drop (pat.length - 1)).length ≤ rest.length := by
          rw [List.length_drop]; omega
        by_cases hpre : pat.isPrefixOf (c :: rest)
        · simp only [replaceGo, hpre, if_true, List.length_cons]
          rw [ih f (Nat.lt_succ_self f) _ (le_trans hd hf),
            ← ih rest.length (by omega) _ hd]
        · simp only [replaceGo, hpre, if_false, List.length_cons]
          rw [ih f (Nat.lt_succ_self f) rest hf,
            ← ih rest.length (by omega) rest (le_refl _)]
          simp

theorem forPass_fuel (ctx : Context) (s : Str) (fuel : Nat) (h : s.length ≤ fuel) :
    reSubCtx SimpleTemplate.forMatcher fuel ctx s = SimpleTemplate.forPass ctx s :=
  reSubCtx_fuel SimpleTemplate.forMatcher forMatcher_length fuel ctx s h

theorem ifPass_fuel (ctx : Context) (s : Str) (fuel : Nat) (h : s.length ≤ fuel) :
    reSubCtx SimpleTemplate.ifMatcher fuel ctx s = SimpleTemplate.ifPass ctx s :=
  reSubCtx_fuel SimpleTemplate.ifMatcher ifMatcher_length fuel ctx s h

theorem delPass_openTag_fuel (s : Str) (fuel : Nat) (h : s.length ≤ fuel) :
    (reSubCtx (SimpleTemplate.delMatcher openTag closeTag) fuel [] s).1
      = SimpleTemplate.delPass openTag closeTag s := by
  unfold SimpleTemplate.delPass
  rw [reSubCtx_fuel (SimpleTemplate.delMatcher openTag closeTag)
    (delMatcher_length openTag closeTag (by simp [closeTag])) fuel [] s h]

theorem delPass_openVar_fuel (s : Str) (fuel : Nat) (h : s.length ≤ fuel) :
    (reSubCtx (SimpleTemplate.delMatcher openVar closeVar) fuel [] s).1
      = SimpleTemplate.delPass openVar closeVar s := by
  unfold SimpleTemplate.delPass
  rw [reSubCtx_fuel (SimpleTemplate.delMatcher openVar closeVar)
    (delMatcher_length openVar closeVar (by simp [closeVar])) fuel [] s h]

theorem replaceAll_fuel (pat rep : Str) (hp : pat ≠ []) (fuel : Nat) (s : Str)
    (h : s.length ≤ fuel) : replaceGo pat rep fuel s = replaceAll s pat rep := by
  rw [replaceGo_fuel pat rep hp fuel s h]
  match pat, hp with
  | p :: ps, _ => rfl

end DocGen
